import Mathlib

/-!
A verification development for the quantum-inspired signal-analysis core in
`src/api/quantum_algorithms.py` (classes `QuantumCircuit` and
`QuantumProcessor`).  The Python code is shallowly embedded: the complex state
vector of an `n`-qubit circuit becomes a function `Fin (2 ^ n) → ℂ`, the
in-place matrix mutations of `apply_gate` / `entangle_qubits` become explicit
operator constructions (a left fold over the loop indices for
`entangle_qubits`, whose loop body writes four cells per iteration), and the
NumPy float operations that can produce `NaN` or raise `IndexError` are
embedded with `Option`, `none` standing for the undefined / raising outcome.
Real and complex arithmetic is exact; every theorem about a `1e-9` tolerance
is proved from an exact identity, which implies the tolerance bound.
-/

namespace QV

noncomputable section

/-- The state vector of `QuantumCircuit` with `n_qubits = n`: a dense array of
`2 ** n_qubits` complex amplitudes (`self.state`), embedded as a function on
`Fin (2 ^ n)`. -/
def QState (n : ℕ) : Type := Fin (2 ^ n) → ℂ

/-- `QuantumCircuit.__init__`: `state = np.zeros(2**n_qubits)`, `state[0] = 1`
(the all-zeros basis state). -/
def initState (n : ℕ) : QState n := fun i => if i.val = 0 then 1 else 0

/-- `sbit n k i` is `int(format(i, f'0{n}b')[k])`: character `k`
(most-significant digit first) of the `n`-character binary string of `i`,
i.e. the binary digit of `i` of weight `2 ^ (n - 1 - k)`. -/
def sbit (n k i : ℕ) : ℕ := i / 2 ^ (n - 1 - k) % 2

/-- The `X` gate from `_initialize_gates`: `np.array([[0, 1], [1, 0]])`,
as a nested list of complex entries. -/
def Xgate : List (List ℂ) := [[0, 1], [1, 0]]

/-- `gate[a, b]` for a gate stored as a nested list, when both indices are in
range (out-of-range access is modelled separately by `applyGatePy`). -/
def entry (g : List (List ℂ)) (a b : ℕ) : ℂ := (g.getD a []).getD b 0

/-- The full-dimension operator built by the double loop of
`QuantumCircuit.apply_gate` for an in-range target: starting from
`np.eye(2**n)`, cell `(i, j)` is overwritten with
`gate[int(i_bin[target]), int(j_bin[target])]` exactly when `i_bin` and
`j_bin` agree at every character position `k ≠ target`; cells that are never
overwritten keep their identity-matrix value.  (Each cell is written at most
once, so the loop order is irrelevant and the matrix is given pointwise.) -/
def gateFull (n : ℕ) (g : ℕ → ℕ → ℂ) (t : ℕ) (i j : Fin (2 ^ n)) : ℂ :=
  if ∀ k < n, k ≠ t → sbit n k i.val = sbit n k j.val then
    g (sbit n t i.val) (sbit n t j.val)
  else if i = j then 1 else 0

/-- `QuantumCircuit.apply_gate(gate, target)` for an in-range target:
`self.state = gate_full @ self.state`.  The mutation of `self.state` is
embedded functionally: the function returns the new state vector. -/
def apply_gate (n : ℕ) (g : ℕ → ℕ → ℂ) (t : ℕ) (s : QState n) : QState n :=
  fun i => ∑ j, gateFull n g t i j * s j

/-- Flipping the target character of the binary string: the loop of
`entangle_qubits` computes `j = int(''.join(i_bin_flipped), 2)` where
`i_bin_flipped` is `i_bin` with character `target` toggled, i.e.
`j = i XOR 2 ^ (n - 1 - target)`. -/
def flipBit (n : ℕ) (t : Fin n) (i : Fin (2 ^ n)) : Fin (2 ^ n) :=
  ⟨i.val ^^^ 2 ^ (n - 1 - t.val),
    Nat.xor_lt_two_pow i.isLt (Nat.pow_lt_pow_right one_lt_two (by omega))⟩

/-- One in-place assignment `M[a, b] = v` to the `gate_full` array. -/
def upd (n : ℕ) (M : Fin (2 ^ n) → Fin (2 ^ n) → ℂ) (a b : Fin (2 ^ n))
    (v : ℂ) : Fin (2 ^ n) → Fin (2 ^ n) → ℂ :=
  fun x y => if x = a ∧ y = b then v else M x y

/-- One iteration of the loop in `QuantumCircuit.entangle_qubits`: when
`i_bin[control] == '1'`, perform
`gate_full[i,i], gate_full[i,j] = 0, 1` and `gate_full[j,j], gate_full[j,i] = 0, 1`
with `j` the index with the target bit of `i` flipped; otherwise leave the
array unchanged. -/
def cnotStep (n : ℕ) (c t : Fin n) (M : Fin (2 ^ n) → Fin (2 ^ n) → ℂ)
    (i : Fin (2 ^ n)) : Fin (2 ^ n) → Fin (2 ^ n) → ℂ :=
  if sbit n c i.val = 1 then
    upd n (upd n (upd n (upd n M i i 0) i (flipBit n t i) 1)
      (flipBit n t i) (flipBit n t i) 0) (flipBit n t i) i 1
  else M

/-- The `gate_full` array of `entangle_qubits` after the whole loop
`for i in range(dim)`, starting from `np.eye(dim)`. -/
def cnotMatrix (n : ℕ) (c t : Fin n) : Fin (2 ^ n) → Fin (2 ^ n) → ℂ :=
  (List.finRange (2 ^ n)).foldl (cnotStep n c t) (fun i j => if i = j then 1 else 0)

/-- `QuantumCircuit.entangle_qubits(control, target)` for in-range arguments:
`self.state = gate_full @ self.state`, embedded functionally. -/
def entangle_qubits (n : ℕ) (c t : Fin n) (s : QState n) : QState n :=
  fun i => ∑ j, cnotMatrix n c t i j * s j

/-! ### Basic facts about string-position bits -/

theorem sbit_lt_two (n k i : ℕ) : sbit n k i < 2 :=
  Nat.mod_lt _ (by norm_num)

theorem sbit_eq_testBit (n k i : ℕ) :
    sbit n k i = if i.testBit (n - 1 - k) then 1 else 0 := by
  have h := Nat.testBit_to_div_mod (x := i) (i := n - 1 - k)
  have h2 : i / 2 ^ (n - 1 - k) % 2 < 2 := Nat.mod_lt _ (by norm_num)
  by_cases hb : i.testBit (n - 1 - k) <;> simp [hb] at h <;> simp [sbit, hb] <;> omega

theorem sbit_flipBit_self (n : ℕ) (t : Fin n) (i : Fin (2 ^ n)) :
    sbit n t.val (flipBit n t i).val = 1 - sbit n t.val i.val := by
  rw [sbit_eq_testBit, sbit_eq_testBit]
  have : (flipBit n t i).val = i.val ^^^ 2 ^ (n - 1 - t.val) := rfl
  rw [this, Nat.testBit_xor, Nat.testBit_two_pow_self]
  cases hb : i.val.testBit (n - 1 - t.val) <;> simp [hb]

theorem sbit_flipBit_ne (n : ℕ) (t : Fin n) (k : ℕ) (hk : k < n)
    (hkt : k ≠ t.val) (i : Fin (2 ^ n)) :
    sbit n k (flipBit n t i).val = sbit n k i.val := by
  rw [sbit_eq_testBit, sbit_eq_testBit]
  have hv : (flipBit n t i).val = i.val ^^^ 2 ^ (n - 1 - t.val) := rfl
  have hne : n - 1 - t.val ≠ n - 1 - k := by
    have := t.isLt; omega
  rw [hv, Nat.testBit_xor, Nat.testBit_two_pow_of_ne hne]
  cases hb : i.val.testBit (n - 1 - k) <;> simp [hb]

theorem flipBit_flipBit (n : ℕ) (t : Fin n) (i : Fin (2 ^ n)) :
    flipBit n t (flipBit n t i) = i := by
  apply Fin.ext
  show (i.val ^^^ 2 ^ (n - 1 - t.val)) ^^^ 2 ^ (n - 1 - t.val) = i.val
  rw [Nat.xor_assoc, Nat.xor_self, Nat.xor_zero]

theorem flipBit_ne (n : ℕ) (t : Fin n) (i : Fin (2 ^ n)) : flipBit n t i ≠ i := by
  intro h
  have hv : i.val ^^^ 2 ^ (n - 1 - t.val) = i.val := congrArg Fin.val h
  have h0 : 0 = 2 ^ (n - 1 - t.val) := by
    have := congrArg (fun x => i.val ^^^ x) hv
    simpa [← Nat.xor_assoc, Nat.xor_self, Nat.xor_zero] using this.symm
  exact (Nat.two_pow_pos _).ne' h0.symm

theorem testBit_eq_of_sbit_eq {n k i j : ℕ} (h : sbit n k i = sbit n k j) :
    i.testBit (n - 1 - k) = j.testBit (n - 1 - k) := by
  rw [sbit_eq_testBit, sbit_eq_testBit] at h
  cases hi : i.testBit (n - 1 - k) <;> cases hj : j.testBit (n - 1 - k) <;>
    simp [hi, hj] at h ⊢

/-- The index obtained from `i` by forcing the target character of its binary
string to `'0'` (used to describe which cells `apply_gate` overwrites). -/
def setBit0 (n : ℕ) (t : Fin n) (i : Fin (2 ^ n)) : Fin (2 ^ n) :=
  if sbit n t.val i.val = 1 then flipBit n t i else i

/-- The index obtained from `i` by forcing the target character of its binary
string to `'1'`. -/
def setBit1 (n : ℕ) (t : Fin n) (i : Fin (2 ^ n)) : Fin (2 ^ n) :=
  if sbit n t.val i.val = 1 then i else flipBit n t i

theorem sbit_setBit0 (n : ℕ) (t : Fin n) (i : Fin (2 ^ n)) :
    sbit n t.val (setBit0 n t i).val = 0 := by
  unfold setBit0
  by_cases h : sbit n t.val i.val = 1
  · rw [if_pos h, sbit_flipBit_self, h]
  · rw [if_neg h]; have := sbit_lt_two n t.val i.val; omega

theorem sbit_setBit1 (n : ℕ) (t : Fin n) (i : Fin (2 ^ n)) :
    sbit n t.val (setBit1 n t i).val = 1 := by
  unfold setBit1
  by_cases h : sbit n t.val i.val = 1
  · rw [if_pos h]; exact h
  · rw [if_neg h, sbit_flipBit_self]
    have := sbit_lt_two n t.val i.val; omega

theorem sbit_setBit0_ne (n : ℕ) (t : Fin n) (k : ℕ) (hk : k < n)
    (hkt : k ≠ t.val) (i : Fin (2 ^ n)) :
    sbit n k (setBit0 n t i).val = sbit n k i.val := by
  unfold setBit0
  by_cases h : sbit n t.val i.val = 1
  · rw [if_pos h]; exact sbit_flipBit_ne n t k hk hkt i
  · rw [if_neg h]

theorem sbit_setBit1_ne (n : ℕ) (t : Fin n) (k : ℕ) (hk : k < n)
    (hkt : k ≠ t.val) (i : Fin (2 ^ n)) :
    sbit n k (setBit1 n t i).val = sbit n k i.val := by
  unfold setBit1
  by_cases h : sbit n t.val i.val = 1
  · rw [if_pos h]
  · rw [if_neg h]; exact sbit_flipBit_ne n t k hk hkt i

theorem setBit0_ne_setBit1 (n : ℕ) (t : Fin n) (i : Fin (2 ^ n)) :
    setBit0 n t i ≠ setBit1 n t i := by
  unfold setBit0 setBit1
  by_cases h : sbit n t.val i.val = 1
  · rw [if_pos h, if_pos h]; exact flipBit_ne n t i
  · rw [if_neg h, if_neg h]; exact (flipBit_ne n t i).symm

/-- The matching condition of `apply_gate`'s loop ("`i_bin` and `j_bin` agree
at every position except `target`") holds exactly for the two indices obtained
from `i` by forcing the target bit to 0 or to 1. -/
theorem agree_iff (n : ℕ) (t : Fin n) (i j : Fin (2 ^ n)) :
    (∀ k < n, k ≠ t.val → sbit n k i.val = sbit n k j.val) ↔
      (j = setBit0 n t i ∨ j = setBit1 n t i) := by
  constructor
  · intro h
    have hhigh : ∀ q, n ≤ q → i.val.testBit q = j.val.testBit q := by
      intro q hq
      rw [Nat.testBit_lt_two_pow (lt_of_lt_of_le i.isLt (Nat.pow_le_pow_right (by norm_num) hq)),
        Nat.testBit_lt_two_pow (lt_of_lt_of_le j.isLt (Nat.pow_le_pow_right (by norm_num) hq))]
    have hlow : ∀ q, q < n → q ≠ n - 1 - t.val → i.val.testBit q = j.val.testBit q := by
      intro q hq hqp
      have hk : n - 1 - q < n := by omega
      have hkt : n - 1 - q ≠ t.val := by have := t.isLt; omega
      have hb := testBit_eq_of_sbit_eq (h (n - 1 - q) hk hkt)
      have hq' : n - 1 - (n - 1 - q) = q := by omega
      rwa [hq'] at hb
    by_cases hp : i.val.testBit (n - 1 - t.val) = j.val.testBit (n - 1 - t.val)
    · have hij : i = j := by
        apply Fin.ext
        apply Nat.eq_of_testBit_eq
        intro q
        by_cases hq : q < n
        · by_cases hqp : q = n - 1 - t.val
          · rw [hqp]; exact hp
          · exact hlow q hq hqp
        · exact hhigh q (le_of_not_lt hq)
      subst hij
      by_cases hb : sbit n t.val i.val = 1
      · right; unfold setBit1; rw [if_pos hb]
      · left; unfold setBit0; rw [if_neg hb]
    · have hj : j = flipBit n t i := by
        apply Fin.ext
        apply Nat.eq_of_testBit_eq
        intro q
        show j.val.testBit q = (i.val ^^^ 2 ^ (n - 1 - t.val)).testBit q
        rw [Nat.testBit_xor]
        by_cases hqp : q = n - 1 - t.val
        · rw [hqp, Nat.testBit_two_pow_self]
          cases hi2 : i.val.testBit (n - 1 - t.val) <;>
            cases hj2 : j.val.testBit (n - 1 - t.val) <;> simp_all
        · rw [Nat.testBit_two_pow_of_ne (fun hh => hqp hh.symm)]
          by_cases hq : q < n
          · simp [← hlow q hq hqp]
          · simp [← hhigh q (le_of_not_lt hq)]
      by_cases hb : sbit n t.val i.val = 1
      · left; unfold setBit0; rw [if_pos hb]; exact hj
      · right; unfold setBit1; rw [if_neg hb]; exact hj
  · intro h k hk hkt
    rcases h with h | h <;> subst h
    · exact (sbit_setBit0_ne n t k hk hkt i).symm
    · exact (sbit_setBit1_ne n t k hk hkt i).symm

/-- Closed form of `apply_gate`: row `i` of the built operator has exactly two
possibly nonzero entries, at the two indices agreeing with `i` away from the
target bit. -/
theorem apply_gate_closed (n : ℕ) (g : ℕ → ℕ → ℂ) (t : Fin n) (s : QState n)
    (i : Fin (2 ^ n)) :
    apply_gate n g t.val s i =
      g (sbit n t.val i.val) 0 * s (setBit0 n t i) +
        g (sbit n t.val i.val) 1 * s (setBit1 n t i) := by
  unfold apply_gate
  have hsum : ∀ j : Fin (2 ^ n), gateFull n g t.val i j * s j =
      if j ∈ ({setBit0 n t i, setBit1 n t i} : Finset (Fin (2 ^ n))) then
        g (sbit n t.val i.val) (sbit n t.val j.val) * s j
      else 0 := by
    intro j
    by_cases hag : ∀ k < n, k ≠ t.val → sbit n k i.val = sbit n k j.val
    · have hmem : j ∈ ({setBit0 n t i, setBit1 n t i} : Finset (Fin (2 ^ n))) := by
        rcases (agree_iff n t i j).mp hag with h | h <;> simp [h]
      rw [gateFull, if_pos hag, if_pos hmem]
    · have hne : ¬ i = j := by
        intro hh
        exact hag (by intro k hk hkt; rw [hh])
      have hmem : j ∉ ({setBit0 n t i, setBit1 n t i} : Finset (Fin (2 ^ n))) := by
        intro hm
        exact hag ((agree_iff n t i j).mpr (by simpa using hm))
      rw [gateFull, if_neg hag, if_neg hne, if_neg hmem, zero_mul]
  rw [Finset.sum_congr rfl (fun j _ => hsum j), Finset.sum_ite_mem,
    Finset.univ_inter, Finset.sum_pair (setBit0_ne_setBit1 n t i),
    sbit_setBit0, sbit_setBit1]

/-! ### Closed form of the `entangle_qubits` loop -/

/-- The set of cells written by iteration `i` of the `entangle_qubits` loop:
when the control bit of `i` is set, the iteration writes the four cells
`(i,i)`, `(i,j)`, `(j,j)`, `(j,i)` with `j` the flipped partner of `i`. -/
def touches (n : ℕ) (c t : Fin n) (i a b : Fin (2 ^ n)) : Prop :=
  sbit n c.val i.val = 1 ∧
    ((a = i ∧ b = i) ∨ (a = i ∧ b = flipBit n t i) ∨
      (a = flipBit n t i ∧ b = flipBit n t i) ∨ (a = flipBit n t i ∧ b = i))

instance touchesDecidable (n : ℕ) (c t : Fin n) (i a b : Fin (2 ^ n)) :
    Decidable (touches n c t i a b) := by
  unfold touches
  infer_instance

/-- What the `gate_full` array of `entangle_qubits` ends up being, in closed
form: a row whose control bit is set (or, when `control = target`, every row)
is the corresponding row of the permutation matrix flipping the target bit;
every other row is an identity row. -/
def cnotClosed (n : ℕ) (c t : Fin n) (a b : Fin (2 ^ n)) : ℂ :=
  if sbit n c.val a.val = 1 ∨ c = t then (if b = flipBit n t a then 1 else 0)
  else if b = a then 1 else 0

theorem cnotStep_apply (n : ℕ) (c t : Fin n) (M : Fin (2 ^ n) → Fin (2 ^ n) → ℂ)
    (i a b : Fin (2 ^ n)) :
    cnotStep n c t M i a b =
      if touches n c t i a b then (if b = flipBit n t a then 1 else 0)
      else M a b := by
  unfold cnotStep
  by_cases hbit : sbit n c.val i.val = 1
  · rw [if_pos hbit]
    have hff := flipBit_flipBit n t i
    have hne := flipBit_ne n t i
    by_cases h1 : a = i <;> by_cases h2 : a = flipBit n t i <;>
      by_cases h3 : b = i <;> by_cases h4 : b = flipBit n t i <;>
      simp_all [upd, touches]
  · rw [if_neg hbit]
    simp [touches, hbit]

theorem cnotFold_apply (n : ℕ) (c t : Fin n) (l : List (Fin (2 ^ n)))
    (M : Fin (2 ^ n) → Fin (2 ^ n) → ℂ) (a b : Fin (2 ^ n)) :
    (l.foldl (cnotStep n c t) M) a b =
      if ∃ i ∈ l, touches n c t i a b then (if b = flipBit n t a then 1 else 0)
      else M a b := by
  induction l generalizing M with
  | nil => simp
  | cons x xs ih =>
    rw [List.foldl_cons, ih]
    by_cases hex : ∃ i ∈ xs, touches n c t i a b
    · have hex' : ∃ i ∈ x :: xs, touches n c t i a b := by
        obtain ⟨i, hi, hti⟩ := hex
        exact ⟨i, List.mem_cons_of_mem x hi, hti⟩
      rw [if_pos hex, if_pos hex']
    · rw [if_neg hex, cnotStep_apply]
      by_cases hx : touches n c t x a b
      · have hx' : ∃ i ∈ x :: xs, touches n c t i a b :=
          ⟨x, List.mem_cons_self x xs, hx⟩
        rw [if_pos hx, if_pos hx']
      · have hnex : ¬ ∃ i ∈ x :: xs, touches n c t i a b := by
          rintro ⟨i, hi, hti⟩
          rcases List.mem_cons.mp hi with h | h
          · exact hx (h ▸ hti)
          · exact hex ⟨i, h, hti⟩
        rw [if_neg hx, if_neg hnex]

theorem cnotMatrix_eq_closed (n : ℕ) (c t : Fin n) :
    cnotMatrix n c t = cnotClosed n c t := by
  funext a b
  unfold cnotMatrix cnotClosed
  rw [cnotFold_apply]
  by_cases hc : sbit n c.val a.val = 1 ∨ c = t
  · by_cases hb : b = a ∨ b = flipBit n t a
    · have hex : ∃ i ∈ List.finRange (2 ^ n), touches n c t i a b := by
        by_cases ha : sbit n c.val a.val = 1
        · refine ⟨a, List.mem_finRange a, ha, ?_⟩
          rcases hb with h | h
          · exact Or.inl ⟨rfl, h⟩
          · exact Or.inr (Or.inl ⟨rfl, h⟩)
        · have hct : c = t := hc.resolve_left ha
          have ha0 : sbit n c.val a.val = 0 := by
            have := sbit_lt_two n c.val a.val; omega
          have hflip : sbit n c.val (flipBit n t a).val = 1 := by
            rw [hct] at ha0 ⊢
            rw [sbit_flipBit_self]
            omega
          refine ⟨flipBit n t a, List.mem_finRange _, hflip, ?_⟩
          have hffa := flipBit_flipBit n t a
          rcases hb with h | h
          · exact Or.inr (Or.inr (Or.inl ⟨hffa.symm, h.trans hffa.symm⟩))
          · exact Or.inr (Or.inr (Or.inr ⟨hffa.symm, h⟩))
      rw [if_pos hex, if_pos hc]
    · push_neg at hb
      have hnex : ¬ ∃ i ∈ List.finRange (2 ^ n), touches n c t i a b := by
        rintro ⟨i, _, hbit, hcells⟩
        rcases hcells with ⟨hai, hbi⟩ | ⟨hai, hbi⟩ | ⟨hai, hbi⟩ | ⟨hai, hbi⟩
        · exact hb.1 (hbi.trans hai.symm)
        · exact hb.2 (by rw [hbi, hai])
        · exact hb.1 (hbi.trans hai.symm)
        · exact hb.2 (by rw [hbi, hai, flipBit_flipBit])
      rw [if_neg hnex, if_pos hc, if_neg hb.2]
      have hba : ¬ a = b := fun h => hb.1 h.symm
      rw [if_neg hba]
  · push_neg at hc
    have hnex : ¬ ∃ i ∈ List.finRange (2 ^ n), touches n c t i a b := by
      rintro ⟨i, _, hbit, hcells⟩
      have hcv : c.val ≠ t.val := fun h => hc.2 (Fin.ext h)
      have ha1 : sbit n c.val a.val = 1 := by
        rcases hcells with ⟨hai, _⟩ | ⟨hai, _⟩ | ⟨hai, _⟩ | ⟨hai, _⟩ <;> rw [hai]
        · exact hbit
        · exact hbit
        · rw [sbit_flipBit_ne n t c.val c.isLt hcv i]; exact hbit
        · rw [sbit_flipBit_ne n t c.val c.isLt hcv i]; exact hbit
      exact hc.1 ha1
    have hcond : ¬ (sbit n c.val a.val = 1 ∨ c = t) := by
      rintro (h | h)
      · exact hc.1 h
      · exact hc.2 h
    rw [if_neg hnex, if_neg hcond]
    show (if a = b then (1 : ℂ) else 0) = if b = a then 1 else 0
    by_cases hab : a = b
    · rw [if_pos hab, if_pos hab.symm]
    · rw [if_neg hab, if_neg (fun h => hab h.symm)]

/-- Closed form of `entangle_qubits` on the state: indices whose control bit
is set get the amplitude of their flipped partner (and when
`control = target` every index does); others are untouched. -/
theorem entangle_closed (n : ℕ) (c t : Fin n) (s : QState n) (i : Fin (2 ^ n)) :
    entangle_qubits n c t s i =
      if sbit n c.val i.val = 1 ∨ c = t then s (flipBit n t i) else s i := by
  unfold entangle_qubits
  rw [show cnotMatrix n c t = cnotClosed n c t from cnotMatrix_eq_closed n c t]
  by_cases hc : sbit n c.val i.val = 1 ∨ c = t
  · have hsum : ∀ j : Fin (2 ^ n), cnotClosed n c t i j * s j =
        if j = flipBit n t i then s j else 0 := by
      intro j
      unfold cnotClosed
      rw [if_pos hc]
      by_cases h : j = flipBit n t i <;> simp [h]
    rw [Finset.sum_congr rfl (fun j _ => hsum j),
      Finset.sum_ite_eq' Finset.univ (flipBit n t i) s, if_pos hc]
    simp
  · have hsum : ∀ j : Fin (2 ^ n), cnotClosed n c t i j * s j =
        if j = i then s j else 0 := by
      intro j
      unfold cnotClosed
      rw [if_neg hc]
      by_cases h : j = i <;> simp [h]
    rw [Finset.sum_congr rfl (fun j _ => hsum j),
      Finset.sum_ite_eq' Finset.univ i s, if_neg hc]
    simp

/-! ### Norm preservation (unitarity of the embedded operators) -/

/-- The sum of squared magnitudes of the amplitudes of a state
(`np.sum(np.abs(state)**2)`). -/
def sumNormSq (n : ℕ) (s : QState n) : ℝ := ∑ i, Complex.normSq (s i)

/-- `g` restricted to indices `{0, 1}` is a unitary 2×2 matrix: its columns
are orthonormal, `G† G = I`. -/
def IsUnitary2 (g : ℕ → ℕ → ℂ) : Prop :=
  ∀ a b, a < 2 → b < 2 →
    (starRingEnd ℂ) (g 0 a) * g 0 b + (starRingEnd ℂ) (g 1 a) * g 1 b =
      if a = b then 1 else 0

theorem unitary2_pair (g : ℕ → ℕ → ℂ) (hg : IsUnitary2 g) (a b : ℂ) :
    Complex.normSq (g 0 0 * a + g 0 1 * b) +
        Complex.normSq (g 1 0 * a + g 1 1 * b) =
      Complex.normSq a + Complex.normSq b := by
  have u00 := hg 0 0 (by norm_num) (by norm_num)
  have u01 := hg 0 1 (by norm_num) (by norm_num)
  have u10 := hg 1 0 (by norm_num) (by norm_num)
  have u11 := hg 1 1 (by norm_num) (by norm_num)
  rw [if_pos rfl] at u00 u11
  rw [if_neg (by norm_num)] at u01
  rw [if_neg (by norm_num)] at u10
  have key : ((Complex.normSq (g 0 0 * a + g 0 1 * b) +
      Complex.normSq (g 1 0 * a + g 1 1 * b) : ℝ) : ℂ) =
      ((Complex.normSq a + Complex.normSq b : ℝ) : ℂ) := by
    push_cast
    rw [← Complex.mul_conj, ← Complex.mul_conj, ← Complex.mul_conj,
      ← Complex.mul_conj]
    simp only [map_add, map_mul]
    linear_combination (a * (starRingEnd ℂ) a) * u00 +
      (b * (starRingEnd ℂ) b) * u11 + ((starRingEnd ℂ) a * b) * u01 +
      (a * (starRingEnd ℂ) b) * u10
  exact_mod_cast key

/-- Splitting a sum over all basis indices into a sum over the indices with
target bit `0`, each paired with its flipped partner. -/
theorem sum_split_flip (n : ℕ) (t : Fin n) (f : Fin (2 ^ n) → ℝ) :
    ∑ i, f i =
      ∑ i ∈ Finset.univ.filter (fun i : Fin (2 ^ n) => sbit n t.val i.val = 0),
        (f i + f (flipBit n t i)) := by
  rw [← Finset.sum_filter_add_sum_filter_not Finset.univ
    (fun i : Fin (2 ^ n) => sbit n t.val i.val = 0) f]
  rw [Finset.sum_add_distrib]
  congr 1
  apply Finset.sum_nbij' (fun i => flipBit n t i) (fun i => flipBit n t i)
  · intro a ha
    simp only [Finset.mem_filter, Finset.mem_univ, true_and] at ha ⊢
    rw [sbit_flipBit_self]
    have := sbit_lt_two n t.val a.val
    omega
  · intro a ha
    simp only [Finset.mem_filter, Finset.mem_univ, true_and] at ha ⊢
    rw [sbit_flipBit_self, ha]
    omega
  · intro a _
    exact flipBit_flipBit n t a
  · intro a _
    exact flipBit_flipBit n t a
  · intro a _
    rw [flipBit_flipBit n t a]

theorem apply_gate_normSq (n : ℕ) (g : ℕ → ℕ → ℂ) (t : Fin n) (s : QState n)
    (hg : IsUnitary2 g) :
    sumNormSq n (apply_gate n g t.val s) = sumNormSq n s := by
  unfold sumNormSq
  rw [sum_split_flip n t (fun i => Complex.normSq (apply_gate n g t.val s i)),
    sum_split_flip n t (fun i => Complex.normSq (s i))]
  apply Finset.sum_congr rfl
  intro i hi
  have hi0 : sbit n t.val i.val = 0 := (Finset.mem_filter.mp hi).2
  have hflip1 : sbit n t.val (flipBit n t i).val = 1 := by
    rw [sbit_flipBit_self, hi0]
  have e1 : apply_gate n g t.val s i = g 0 0 * s i + g 0 1 * s (flipBit n t i) := by
    rw [apply_gate_closed n g t s i]
    unfold setBit0 setBit1
    rw [hi0]
    norm_num
  have e2 : apply_gate n g t.val s (flipBit n t i) =
      g 1 0 * s i + g 1 1 * s (flipBit n t i) := by
    rw [apply_gate_closed n g t s (flipBit n t i)]
    unfold setBit0 setBit1
    rw [hflip1]
    norm_num [flipBit_flipBit]
  rw [e1, e2]
  exact unitary2_pair g hg (s i) (s (flipBit n t i))

theorem entangle_normSq (n : ℕ) (c t : Fin n) (s : QState n) :
    sumNormSq n (entangle_qubits n c t s) = sumNormSq n s := by
  unfold sumNormSq
  have hinv : Function.Involutive
      (fun i : Fin (2 ^ n) =>
        if sbit n c.val i.val = 1 ∨ c = t then flipBit n t i else i) := by
    intro i
    by_cases h : sbit n c.val i.val = 1 ∨ c = t
    · simp only [if_pos h]
      have h2 : sbit n c.val (flipBit n t i).val = 1 ∨ c = t := by
        by_cases hct : c = t
        · exact Or.inr hct
        · rcases h with h | h
          · left
            rw [sbit_flipBit_ne n t c.val c.isLt (fun hh => hct (Fin.ext hh)) i]
            exact h
          · exact absurd h hct
      rw [if_pos h2, flipBit_flipBit]
    · simp only [if_neg h]
  have hpt : ∀ i, entangle_qubits n c t s i =
      s (if sbit n c.val i.val = 1 ∨ c = t then flipBit n t i else i) := by
    intro i
    rw [entangle_closed]
    by_cases h : sbit n c.val i.val = 1 ∨ c = t <;> simp [h]
  calc ∑ i, Complex.normSq (entangle_qubits n c t s i)
      = ∑ i, Complex.normSq (s ((Function.Involutive.toPerm _ hinv) i)) := by
        apply Finset.sum_congr rfl
        intro i _
        rw [hpt i]
        simp [Function.Involutive.coe_toPerm]
    _ = ∑ i, Complex.normSq (s i) :=
        Equiv.sum_comp (Function.Involutive.toPerm _ hinv)
          (fun i => Complex.normSq (s i))

/-- One operation of a circuit program: `apply_gate` with a gate and an
in-range target, or `entangle_qubits` with in-range control and target. -/
inductive QOp (n : ℕ) where
  | gate (g : ℕ → ℕ → ℂ) (t : Fin n) : QOp n
  | ent (c t : Fin n) : QOp n

/-- Executing one operation on the circuit state. -/
def applyOp (n : ℕ) (s : QState n) : QOp n → QState n
  | QOp.gate g t => apply_gate n g t.val s
  | QOp.ent c t => entangle_qubits n c t s

/-- Executing a sequence of operations in order, as the caller of the circuit
would by mutating `self.state` repeatedly. -/
def runOps (n : ℕ) (ops : List (QOp n)) (s : QState n) : QState n :=
  ops.foldl (applyOp n) s

/-- The validity preconditions of the specification: gates passed to
`apply_gate` are 2×2 unitary, `entangle_qubits` gets distinct control and
target (index ranges are enforced by the `Fin n` type). -/
def ValidOp (n : ℕ) : QOp n → Prop
  | QOp.gate g _ => IsUnitary2 g
  | QOp.ent c t => c ≠ t

theorem sumNormSq_initState (n : ℕ) : sumNormSq n (initState n) = 1 := by
  unfold sumNormSq initState
  have h0 : (0 : ℕ) < 2 ^ n := Nat.two_pow_pos n
  have hterm : ∀ i : Fin (2 ^ n),
      Complex.normSq (if i.val = 0 then (1 : ℂ) else 0) =
        if i = ⟨0, h0⟩ then (1 : ℝ) else 0 := by
    intro i
    by_cases h : i.val = 0
    · rw [if_pos h, if_pos (Fin.ext h)]
      simp
    · rw [if_neg h, if_neg (fun hh => h (congrArg Fin.val hh))]
      simp
  rw [Finset.sum_congr rfl (fun i _ => hterm i),
    Finset.sum_ite_eq' Finset.univ (⟨0, h0⟩ : Fin (2 ^ n)) (fun _ => (1 : ℝ))]
  simp

theorem runOps_normSq (n : ℕ) (ops : List (QOp n)) (s : QState n)
    (h : ∀ op ∈ ops, ValidOp n op) :
    sumNormSq n (runOps n ops s) = sumNormSq n s := by
  induction ops generalizing s with
  | nil => rfl
  | cons op rest ih =>
    have hstep : sumNormSq n (applyOp n s op) = sumNormSq n s := by
      cases op with
      | gate g t => exact apply_gate_normSq n g t s (h _ (List.mem_cons_self _ _))
      | ent c t => exact entangle_normSq n c t s
    calc sumNormSq n (runOps n (op :: rest) s)
        = sumNormSq n (runOps n rest (applyOp n s op)) := rfl
      _ = sumNormSq n (applyOp n s op) :=
          ih (applyOp n s op) (fun o ho => h o (List.mem_cons_of_mem _ ho))
      _ = sumNormSq n s := hstep

/-! ### Python-level index/error semantics of the two circuit methods -/

/-- Python string indexing into `format(i, f'0{n}b')` (an `n`-character
string, `n ≥ 1`): a raw index `z` with `0 ≤ z < n` is used as is,
`-n ≤ z < 0` silently wraps to `n + z` (Python negative indexing), and
anything else raises `IndexError`, modelled as `none`. -/
def pyIdx (n : ℕ) (z : ℤ) : Option (Fin n) :=
  if h : 0 ≤ z ∧ z < (n : ℤ) then some ⟨z.toNat, by omega⟩
  else if h' : -(n : ℤ) ≤ z ∧ z < 0 then some ⟨(z + n).toNat, by omega⟩
  else none

/-- NumPy 2-D element access `gate[a, b]` for the non-negative indices
generated by `apply_gate`; `none` models the `IndexError` raised by an
out-of-range access. -/
def pyGet2 (g : List (List ℂ)) (a b : ℕ) : Option ℂ :=
  (g[a]?).bind fun row => row[b]?

/-- For `n ≥ 1`, the loop of `apply_gate` reads exactly the gate entries
`gate[a, b]` with `a, b ∈ {0, 1}`: `(0,0)` already at `i = j = 0`, and
`(0,1)`, `(1,0)`, `(1,1)` at the matching pair `{0, 2^(n-1-kt)}`.  The call
raises iff one of these four accesses is out of range; any gate exposing
rows `0,1` of length `≥ 2` — e.g. a 3×3 array — is accepted silently. -/
def gateShapeOK (g : List (List ℂ)) : Bool :=
  (pyGet2 g 0 0).isSome && (pyGet2 g 0 1).isSome &&
    (pyGet2 g 1 0).isSome && (pyGet2 g 1 1).isSome

/-- The operator `apply_gate` builds when called with a raw integer `target`:
the loop condition compares the loop variable `k` against the *raw*
`target` (`if k != target`), while the character accesses `i_bin[target]`
use the wrapped string position `kt`.  For a negative `target` the
comparison is vacuous, so only diagonal cells are overwritten. -/
def gateFullRaw (n : ℕ) (g : ℕ → ℕ → ℂ) (tz : ℤ) (kt : Fin n)
    (i j : Fin (2 ^ n)) : ℂ :=
  if ∀ k < n, (k : ℤ) ≠ tz → sbit n k i.val = sbit n k j.val then
    g (sbit n kt.val i.val) (sbit n kt.val j.val)
  else if i = j then 1 else 0

/-- `QuantumCircuit.apply_gate` with Python error semantics (`none` = the
call raises): the target must be a valid raw string index and the gate must
expose the four accessed entries; no other validation happens. -/
def apply_gate_py (n : ℕ) (g : List (List ℂ)) (tz : ℤ) (s : QState n) :
    Option (QState n) :=
  (pyIdx n tz).bind fun kt =>
    if gateShapeOK g then
      some (fun i => ∑ j, gateFullRaw n (entry g) tz kt i j * s j)
    else none

/-- `QuantumCircuit.entangle_qubits` with Python error semantics: its only
failure mode is string indexing with the raw `control` / `target` arguments
(both characters are read on some iteration whenever `n ≥ 1`); in-range and
negative-wrapped indices proceed with the wrapped positions. -/
def entangle_py (n : ℕ) (cz tz : ℤ) (s : QState n) : Option (QState n) :=
  (pyIdx n cz).bind fun c => (pyIdx n tz).map fun t => entangle_qubits n c t s

theorem pyIdx_isSome_iff (n : ℕ) (z : ℤ) :
    (pyIdx n z).isSome = true ↔ (-(n : ℤ) ≤ z ∧ z < n) := by
  unfold pyIdx
  by_cases h : 0 ≤ z ∧ z < (n : ℤ)
  · rw [dif_pos h]
    simp only [Option.isSome_some, true_iff]
    omega
  · rw [dif_neg h]
    by_cases h' : -(n : ℤ) ≤ z ∧ z < 0
    · rw [dif_pos h']
      simp only [Option.isSome_some, true_iff]
      omega
    · rw [dif_neg h']
      simp only [Option.isSome_none, Bool.false_eq_true, false_iff]
      omega

theorem pyIdx_coe (n : ℕ) (t : Fin n) : pyIdx n (t.val : ℤ) = some t := by
  unfold pyIdx
  rw [dif_pos ⟨Int.natCast_nonneg _, by exact_mod_cast t.isLt⟩]
  exact congrArg some (Fin.ext (show ((t.val : ℤ)).toNat = t.val by omega))

theorem apply_gate_py_isSome_iff (n : ℕ) (g : List (List ℂ)) (tz : ℤ)
    (s : QState n) :
    (apply_gate_py n g tz s).isSome = true ↔
      ((-(n : ℤ) ≤ tz ∧ tz < n) ∧ gateShapeOK g = true) := by
  unfold apply_gate_py
  cases hp : pyIdx n tz with
  | none =>
    have hiff := pyIdx_isSome_iff n tz
    rw [hp] at hiff
    simp only [Option.isSome_none, Bool.false_eq_true, false_iff] at hiff
    simp [hiff]
  | some kt =>
    have hiff := pyIdx_isSome_iff n tz
    rw [hp] at hiff
    simp only [Option.isSome_some, true_iff] at hiff
    by_cases hok : gateShapeOK g = true <;> simp [hok, hiff]

theorem entangle_py_isSome_iff (n : ℕ) (cz tz : ℤ) (s : QState n) :
    (entangle_py n cz tz s).isSome = true ↔
      ((-(n : ℤ) ≤ cz ∧ cz < n) ∧ (-(n : ℤ) ≤ tz ∧ tz < n)) := by
  unfold entangle_py
  cases hc : pyIdx n cz with
  | none =>
    have hiffc := pyIdx_isSome_iff n cz
    rw [hc] at hiffc
    simp only [Option.isSome_none, Bool.false_eq_true, false_iff] at hiffc
    simp [hiffc]
  | some c =>
    have hiffc := pyIdx_isSome_iff n cz
    rw [hc] at hiffc
    simp only [Option.isSome_some, true_iff] at hiffc
    cases ht : pyIdx n tz with
    | none =>
      have hifft := pyIdx_isSome_iff n tz
      rw [ht] at hifft
      simp only [Option.isSome_none, Bool.false_eq_true, false_iff] at hifft
      simp [hifft, hiffc]
    | some t =>
      have hifft := pyIdx_isSome_iff n tz
      rw [ht] at hifft
      simp only [Option.isSome_some, true_iff] at hifft
      simp [hifft, hiffc]

theorem entangle_py_coe (n : ℕ) (c t : Fin n) (s : QState n) :
    entangle_py n (c.val : ℤ) (t.val : ℤ) s = some (entangle_qubits n c t s) := by
  unfold entangle_py
  rw [pyIdx_coe, pyIdx_coe]
  rfl

/-- `entangle_qubits(t, t)` acts on the state exactly as `apply_gate` with
the `X` gate on qubit `t`: with `control = target`, every pair of indices
differing in bit `t` gets swapped, which is the embedded NOT. -/
theorem entangle_self_eq_X (n : ℕ) (t : Fin n) (s : QState n) :
    entangle_qubits n t t s = apply_gate n (entry Xgate) t.val s := by
  funext i
  rw [entangle_closed, apply_gate_closed n (entry Xgate) t s i, if_pos (Or.inr rfl)]
  by_cases hb : sbit n t.val i.val = 1
  · unfold setBit0 setBit1
    rw [hb, if_pos rfl, if_pos rfl]
    rw [show entry Xgate 1 0 = 1 from rfl, show entry Xgate 1 1 = 0 from rfl]
    ring
  · have hb0 : sbit n t.val i.val = 0 := by
      have := sbit_lt_two n t.val i.val
      omega
    unfold setBit0 setBit1
    rw [hb0, if_neg (by norm_num), if_neg (by norm_num)]
    rw [show entry Xgate 0 0 = 0 from rfl, show entry Xgate 0 1 = 1 from rfl]
    ring

/-! ### The signal-processing methods of `QuantumProcessor` -/

/-- `np.linalg.norm(signal)` for a 1-D array: the L2 norm. -/
def norm2 (l : List ℝ) : ℝ := Real.sqrt ((l.map (fun x => x ^ 2)).sum)

/-- `QuantumProcessor._prepare_quantum_state`: after `ravel` (the identity on
1-D input), `signal / (np.linalg.norm(signal) + 1e-10)`. -/
def prepare_quantum_state (l : List ℝ) : List ℝ :=
  l.map (fun x => x / (norm2 l + 1e-10))

/-- One coefficient of `_quantum_feature_extraction`:
`np.sum(signal * np.exp(-2j * np.pi * k * np.arange(n) / n))` — the
elementwise product of the signal with the exponentials, then summed. -/
def dftCoeff (l : List ℝ) (k : ℕ) : ℂ :=
  ((List.range l.length).map (fun t =>
    ((l.getD t 0 : ℝ) : ℂ) *
      Complex.exp (-2 * Complex.I * Real.pi * k * t / l.length))).sum

/-- `QuantumProcessor._quantum_feature_extraction`: `n = len(signal)`
complex coefficients, `features[k]` given by `dftCoeff`. -/
def quantum_feature_extraction (l : List ℝ) : List ℂ :=
  (List.range l.length).map (dftCoeff l)

/-- Modelled from the spec's words (§4.2, transform): coefficient
`k = Σ_t signal[t] · exp(−2πi·k·t/N)` for `t, k ∈ [0, N)`.  Kept separate
from `dftCoeff` (the code's expression) so the two can be compared. -/
def dftSpec (l : List ℝ) (k : ℕ) : ℂ :=
  ∑ t ∈ Finset.range l.length,
    ((l.getD t 0 : ℝ) : ℂ) *
      Complex.exp (-(2 * Real.pi * Complex.I * k * t) / l.length)

/-- The recursion underlying `np.argmax`: scan carrying the current best
value `bv` at absolute index `bi` and the absolute index `cur` of the list
head; the best is replaced only on a strictly greater value, so the first
occurrence of the maximum wins. -/
def argmaxGo (bv : ℝ) (bi cur : ℕ) : List ℝ → ℕ
  | [] => bi
  | y :: ys => if bv < y then argmaxGo y cur (cur + 1) ys
    else argmaxGo bv bi (cur + 1) ys

/-- `np.argmax` on a 1-D float array: the index of the first occurrence of
the maximum value; raises `ValueError` (modelled `none`) on an empty array. -/
def npArgmax : List ℝ → Option ℕ
  | [] => none
  | x :: xs => some (argmaxGo x 0 1 xs)

/-- `QuantumProcessor._quantum_phase_estimation`: the transform coefficients
together with `np.angle(phases[np.argmax(np.abs(phases))])` (`np.angle`
returns the argument in `(−π, π]`, as `Complex.arg` does). -/
def quantum_phase_estimation (l : List ℝ) : List ℂ × Option ℝ :=
  (quantum_feature_extraction l,
    (npArgmax ((quantum_feature_extraction l).map Complex.abs)).map fun m =>
      Complex.arg ((quantum_feature_extraction l).getD m 0))

/-- NumPy float division; `none` models the NaN produced by `0.0 / 0.0`
(the only zero-denominator case reachable below, since there the numerator
is a maximum of the summands of the denominator). -/
def npDiv (a b : ℝ) : Option ℝ := if b = 0 then none else some (a / b)

/-- `np.fft.fft(signal)` for real input: the DFT
`A_k = Σ_t a_t · exp(−2πi·k·t/n)`, the same sum the hand-written transform
computes. -/
def npFFT (l : List ℝ) : List ℂ := (List.range l.length).map (dftCoeff l)

/-- `QuantumProcessor._detect_periodicity`:
`power = np.abs(np.fft.fft(signal)) ** 2; np.max(power) / np.sum(power)`.
`np.max` raises on an empty array (`none`), and the division produces NaN
(`none`) when the total power is zero. -/
def detect_periodicity (l : List ℝ) : Option ℝ :=
  ((npFFT l).map (fun z => Complex.abs z ^ 2)).max?.bind fun m =>
    npDiv m ((npFFT l).map (fun z => Complex.abs z ^ 2)).sum

/-- `QuantumProcessor._estimate_noise`: `np.std(signal)`, the population
standard deviation `sqrt(mean((x − mean(x))²))`; on an empty array the mean
is `0/0` and `np.std` returns NaN, modelled `none`. -/
def estimate_noise (l : List ℝ) : Option ℝ :=
  if l.length = 0 then none
  else some (Real.sqrt ((l.map (fun x => (x - l.sum / l.length) ^ 2)).sum / l.length))

/-- `QuantumProcessor._quantum_complexity`:
`np.sum(np.abs(np.diff(signal)))` with `np.diff(x) = x[1:] − x[:-1]`
(an empty array for length ≤ 1, and `np.sum([]) = 0.0`). -/
def quantum_complexity (l : List ℝ) : ℝ :=
  (List.zipWith (fun a b => |a - b|) l.tail l).sum

theorem list_range_map_sum {M : Type} [AddCommMonoid M] (n : ℕ) (f : ℕ → M) :
    ((List.range n).map f).sum = ∑ t ∈ Finset.range n, f t := by
  induction n with
  | zero => rfl
  | succ m ih =>
    rw [List.range_succ, List.map_append, List.sum_append, Finset.sum_range_succ, ih]
    simp

theorem dftCoeff_eq_dftSpec (l : List ℝ) (k : ℕ) : dftCoeff l k = dftSpec l k := by
  unfold dftCoeff dftSpec
  rw [list_range_map_sum]
  apply Finset.sum_congr rfl
  intro t _
  have harg : (-2 * Complex.I * (Real.pi : ℂ) * (k : ℂ) * (t : ℂ) / (l.length : ℂ)) =
      (-(2 * (Real.pi : ℂ) * Complex.I * (k : ℂ) * (t : ℂ)) / (l.length : ℂ)) := by
    ring
  rw [harg]

theorem getD_quantum_feature_extraction (l : List ℝ) (k : ℕ) (hk : k < l.length) :
    (quantum_feature_extraction l).getD k 0 = dftCoeff l k := by
  unfold quantum_feature_extraction
  rw [List.getD_eq_getElem?_getD, List.getElem?_map, List.getElem?_range hk]
  rfl

/-- Invariant of the `argmaxGo` scan: either the carried best wins and every
remaining element is `≤` the best value, or the result is the absolute index
`cur + d` of a remaining element strictly greater than the carried best,
maximal among the remaining elements, and strictly greater than every
remaining element before it. -/
theorem argmaxGo_spec (rest : List ℝ) (bv : ℝ) (bi cur : ℕ) :
    (argmaxGo bv bi cur rest = bi ∧ ∀ d, d < rest.length → rest.getD d 0 ≤ bv) ∨
      (∃ d, d < rest.length ∧ argmaxGo bv bi cur rest = cur + d ∧
        bv < rest.getD d 0 ∧
        (∀ e, e < rest.length → rest.getD e 0 ≤ rest.getD d 0) ∧
        (∀ e, e < d → rest.getD e 0 < rest.getD d 0)) := by
  induction rest generalizing bv bi cur with
  | nil =>
    left
    exact ⟨rfl, by simp⟩
  | cons y ys ih =>
    by_cases hy : bv < y
    · rw [show argmaxGo bv bi cur (y :: ys) = argmaxGo y cur (cur + 1) ys from by
        rw [argmaxGo, if_pos hy]]
      rcases ih y cur (cur + 1) with ⟨heq, hle⟩ | ⟨d, hd, heq, hgt, hle, hst⟩
      · right
        refine ⟨0, by simp, by rw [heq]; omega, by simpa using hy, ?_, ?_⟩
        · intro e he
          cases e with
          | zero => simp
          | succ e' =>
            rw [List.getD_cons_succ, List.getD_cons_zero]
            exact hle e' (by simpa using he)
        · intro e he
          exact absurd he (Nat.not_lt_zero e)
      · right
        refine ⟨d + 1, by simpa using hd, by rw [heq]; omega, ?_, ?_, ?_⟩
        · rw [List.getD_cons_succ]
          exact lt_trans hy hgt
        · intro e he
          cases e with
          | zero =>
            rw [List.getD_cons_zero, List.getD_cons_succ]
            exact le_of_lt hgt
          | succ e' =>
            rw [List.getD_cons_succ, List.getD_cons_succ]
            exact hle e' (by simpa using he)
        · intro e he
          cases e with
          | zero =>
            rw [List.getD_cons_zero, List.getD_cons_succ]
            exact hgt
          | succ e' =>
            rw [List.getD_cons_succ, List.getD_cons_succ]
            exact hst e' (by omega)
    · rw [show argmaxGo bv bi cur (y :: ys) = argmaxGo bv bi (cur + 1) ys from by
        rw [argmaxGo, if_neg hy]]
      rcases ih bv bi (cur + 1) with ⟨heq, hle⟩ | ⟨d, hd, heq, hgt, hle, hst⟩
      · left
        refine ⟨heq, ?_⟩
        intro e he
        cases e with
        | zero =>
          rw [List.getD_cons_zero]
          exact le_of_not_lt hy
        | succ e' =>
          rw [List.getD_cons_succ]
          exact hle e' (by simpa using he)
      · right
        refine ⟨d + 1, by simpa using hd, by rw [heq]; omega, ?_, ?_, ?_⟩
        · rw [List.getD_cons_succ]
          exact hgt
        · intro e he
          cases e with
          | zero =>
            rw [List.getD_cons_zero, List.getD_cons_succ]
            exact le_of_lt (lt_of_le_of_lt (le_of_not_lt hy) hgt)
          | succ e' =>
            rw [List.getD_cons_succ, List.getD_cons_succ]
            exact hle e' (by simpa using he)
        · intro e he
          cases e with
          | zero =>
            rw [List.getD_cons_zero, List.getD_cons_succ]
            exact lt_of_le_of_lt (le_of_not_lt hy) hgt
          | succ e' =>
            rw [List.getD_cons_succ, List.getD_cons_succ]
            exact hst e' (by omega)

/-- `np.argmax` on a nonempty array returns the index of its maximum, and of
several equal maxima the first (lowest-index) one. -/
theorem npArgmax_spec (l : List ℝ) (hl : 0 < l.length) :
    ∃ m, npArgmax l = some m ∧ m < l.length ∧
      (∀ j, j < l.length → l.getD j 0 ≤ l.getD m 0) ∧
      (∀ j, j < m → l.getD j 0 < l.getD m 0) := by
  cases l with
  | nil => simp at hl
  | cons x xs =>
    rcases argmaxGo_spec xs x 0 1 with ⟨heq, hle⟩ | ⟨d, hd, heq, hgt, hle, hst⟩
    · refine ⟨0, by rw [npArgmax, heq], by simp, ?_, ?_⟩
      · intro j hj
        cases j with
        | zero => simp
        | succ j' =>
          rw [List.getD_cons_succ, List.getD_cons_zero]
          exact hle j' (by simpa using hj)
      · intro j hj
        exact absurd hj (Nat.not_lt_zero j)
    · refine ⟨d + 1, by rw [npArgmax, heq, Nat.add_comm], by simpa using hd, ?_, ?_⟩
      · intro j hj
        cases j with
        | zero =>
          rw [List.getD_cons_zero, List.getD_cons_succ]
          exact le_of_lt hgt
        | succ j' =>
          rw [List.getD_cons_succ, List.getD_cons_succ]
          exact hle j' (by simpa using hj)
      · intro j hj
        cases j with
        | zero =>
          rw [List.getD_cons_zero, List.getD_cons_succ]
          exact hgt
        | succ j' =>
          rw [List.getD_cons_succ, List.getD_cons_succ]
          exact hst j' (by omega)

theorem getD_map_abs (l : List ℂ) (j : ℕ) (hj : j < l.length) :
    (l.map Complex.abs).getD j 0 = Complex.abs (l.getD j 0) := by
  rw [List.getD_eq_getElem?_getD, List.getElem?_map,
    List.getElem?_eq_getElem hj, List.getD_eq_getElem?_getD,
    List.getElem?_eq_getElem hj]
  rfl

/-! ### Behaviour on all-zero and degenerate signals -/

theorem getD_replicate_zero (L t : ℕ) : (List.replicate L (0 : ℝ)).getD t 0 = 0 := by
  rw [List.getD_eq_getElem?_getD, List.getElem?_replicate]
  split <;> rfl

theorem dftCoeff_replicate_zero (L k : ℕ) :
    dftCoeff (List.replicate L 0) k = 0 := by
  unfold dftCoeff
  rw [list_range_map_sum]
  apply Finset.sum_eq_zero
  intro t _
  rw [getD_replicate_zero]
  simp

theorem norm2_replicate_zero (L : ℕ) : norm2 (List.replicate L 0) = 0 := by
  unfold norm2
  have h : (List.replicate L (0 : ℝ)).map (fun x => x ^ 2) = List.replicate L 0 := by
    rw [List.map_replicate]
    norm_num
  rw [h, List.sum_replicate]
  simp

theorem prepare_replicate_zero (L : ℕ) :
    prepare_quantum_state (List.replicate L 0) = List.replicate L 0 := by
  unfold prepare_quantum_state
  rw [norm2_replicate_zero, List.map_replicate]
  norm_num

theorem foldl_max_replicate_zero (m : ℕ) :
    List.foldl max (0 : ℝ) (List.replicate m 0) = 0 := by
  induction m with
  | zero => rfl
  | succ k ih =>
    rw [List.replicate_succ, List.foldl_cons, max_self]
    exact ih

theorem estimate_noise_nil : estimate_noise [] = none := rfl

theorem estimate_noise_replicate_zero (L : ℕ) (hL : 1 ≤ L) :
    estimate_noise (List.replicate L 0) = some 0 := by
  unfold estimate_noise
  rw [if_neg (by rw [List.length_replicate]; omega)]
  have hsum : (List.replicate L (0 : ℝ)).sum = 0 := by simp
  rw [hsum]
  have hmap : (List.replicate L (0 : ℝ)).map
      (fun x => (x - 0 / ((List.replicate L (0 : ℝ)).length : ℝ)) ^ 2) =
      List.replicate L 0 := by
    rw [List.map_replicate]
    norm_num
  rw [hmap, List.sum_replicate]
  norm_num

theorem zipWith_abs_sub_zero (l1 l2 : List ℝ) (h1 : ∀ x ∈ l1, x = 0)
    (h2 : ∀ x ∈ l2, x = 0) :
    (List.zipWith (fun a b => |a - b|) l1 l2).sum = 0 := by
  induction l1 generalizing l2 with
  | nil => rfl
  | cons a l1' ih =>
    cases l2 with
    | nil => rfl
    | cons b l2' =>
      rw [List.zipWith_cons_cons, List.sum_cons,
        h1 a (List.mem_cons_self _ _), h2 b (List.mem_cons_self _ _),
        ih l2' (fun x hx => h1 x (List.mem_cons_of_mem _ hx))
          (fun x hx => h2 x (List.mem_cons_of_mem _ hx))]
      norm_num

theorem quantum_complexity_all_zero (l : List ℝ) (h : ∀ x ∈ l, x = 0) :
    quantum_complexity l = 0 :=
  zipWith_abs_sub_zero l.tail l (fun x hx => h x (List.mem_of_mem_tail hx)) h

theorem quantum_complexity_short (l : List ℝ) (h : l.length ≤ 1) :
    quantum_complexity l = 0 := by
  cases l with
  | nil => rfl
  | cons x xs =>
    cases xs with
    | nil => rfl
    | cons y ys => simp at h

theorem estimate_noise_single (x : ℝ) : estimate_noise [x] = some 0 := by
  unfold estimate_noise
  rw [if_neg (by simp)]
  have h1 : ([x] : List ℝ).sum = x := by simp
  have h2 : (([x] : List ℝ).length : ℝ) = 1 := by simp
  rw [h1, h2]
  norm_num

theorem detect_periodicity_replicate_zero (L : ℕ) (hL : 1 ≤ L) :
    detect_periodicity (List.replicate L 0) = none := by
  unfold detect_periodicity npFFT
  have hmap : (((List.range ((List.replicate L (0 : ℝ)).length)).map
      (dftCoeff (List.replicate L 0))).map (fun z => Complex.abs z ^ 2)) =
      List.replicate L 0 := by
    rw [List.length_replicate, List.map_map]
    apply List.eq_replicate_iff.mpr
    constructor
    · rw [List.length_map, List.length_range]
    · intro b hb
      obtain ⟨k, _, hk⟩ := List.mem_map.mp hb
      rw [← hk]
      show Complex.abs (dftCoeff (List.replicate L 0) k) ^ 2 = 0
      rw [dftCoeff_replicate_zero]
      simp
  rw [hmap]
  have hmax : (List.replicate L (0 : ℝ)).max? = some 0 := by
    cases L with
    | zero => omega
    | succ m =>
      rw [List.replicate_succ, List.max?_cons']
      rw [foldl_max_replicate_zero]
  rw [hmax]
  have hsum : (List.replicate L (0 : ℝ)).sum = 0 := by simp
  show npDiv 0 ((List.replicate L (0 : ℝ)).sum) = none
  rw [hsum]
  unfold npDiv
  rw [if_pos rfl]

/-! ### Normalization: norm scaling and idempotence bounds -/

theorem norm2_nonneg (l : List ℝ) : 0 ≤ norm2 l := Real.sqrt_nonneg _

theorem sum_sq_nonneg (l : List ℝ) : 0 ≤ (l.map (fun x => x ^ 2)).sum :=
  List.sum_nonneg (fun x hx => by
    obtain ⟨y, _, hy⟩ := List.mem_map.mp hx
    rw [← hy]
    positivity)

theorem sum_sq_div (l : List ℝ) (c : ℝ) :
    ((l.map (fun x => x / c)).map (fun x => x ^ 2)).sum =
      (l.map (fun x => x ^ 2)).sum / c ^ 2 := by
  induction l with
  | nil => simp
  | cons a l' ih =>
    simp only [List.map_cons, List.sum_cons, ih]
    ring

theorem norm2_map_div (l : List ℝ) (c : ℝ) (hc : 0 < c) :
    norm2 (l.map (fun x => x / c)) = norm2 l / c := by
  unfold norm2
  rw [sum_sq_div, Real.sqrt_div (sum_sq_nonneg l), Real.sqrt_sq hc.le]

theorem abs_le_norm2 (l : List ℝ) (i : ℕ) : |l.getD i 0| ≤ norm2 l := by
  by_cases hi : i < l.length
  · have hmem : l.getD i 0 ^ 2 ∈ l.map (fun x => x ^ 2) := by
      apply List.mem_map.mpr
      refine ⟨l.getD i 0, ?_, rfl⟩
      rw [List.getD_eq_getElem?_getD, List.getElem?_eq_getElem hi]
      exact List.getElem_mem hi
    have hle : l.getD i 0 ^ 2 ≤ (l.map (fun x => x ^ 2)).sum :=
      List.single_le_sum (fun x hx => by
          obtain ⟨y, _, hy⟩ := List.mem_map.mp hx
          rw [← hy]
          positivity) _ hmem
    calc |l.getD i 0| = Real.sqrt (l.getD i 0 ^ 2) := (Real.sqrt_sq_eq_abs _).symm
      _ ≤ norm2 l := Real.sqrt_le_sqrt hle
  · rw [List.getD_eq_getElem?_getD, List.getElem?_eq_none (by omega)]
    simpa using norm2_nonneg l

theorem getD_prepare (l : List ℝ) (i : ℕ) :
    (prepare_quantum_state l).getD i 0 = l.getD i 0 / (norm2 l + 1e-10) := by
  unfold prepare_quantum_state
  by_cases hi : i < l.length
  · rw [List.getD_eq_getElem?_getD, List.getElem?_map,
      List.getElem?_eq_getElem hi, List.getD_eq_getElem?_getD,
      List.getElem?_eq_getElem hi]
    rfl
  · rw [List.getD_eq_getElem?_getD, List.getElem?_map,
      List.getElem?_eq_none (l := l) (by omega),
      List.getD_eq_getElem?_getD, List.getElem?_eq_none (l := l) (by omega)]
    simp

theorem norm2_prepare (l : List ℝ) :
    norm2 (prepare_quantum_state l) = norm2 l / (norm2 l + 1e-10) := by
  unfold prepare_quantum_state
  have h0 : (0 : ℝ) < norm2 l + 1e-10 := by
    have hn := norm2_nonneg l
    have he : (0 : ℝ) < 1e-10 := by norm_num
    linarith
  exact norm2_map_div l _ h0

theorem prepare_idem_bound (a x : ℝ) (ha : 1 / 10 ≤ a) (hx : |x| ≤ a) :
    |x / ((a + 1e-10) * (a / (a + 1e-10) + 1e-10)) - x / (a + 1e-10)| ≤ 1e-9 := by
  have hA : (0 : ℝ) < a + 1e-10 := by linarith
  have hden : (a + 1e-10) * (a / (a + 1e-10) + 1e-10) =
      a + 1e-10 * (a + 1e-10) := by
    field_simp
  rw [hden]
  have hD : (0 : ℝ) < a + 1e-10 * (a + 1e-10) := by nlinarith
  have hdiff : x / (a + 1e-10 * (a + 1e-10)) - x / (a + 1e-10) =
      x * (1e-10 * (1 - a - 1e-10)) /
        ((a + 1e-10 * (a + 1e-10)) * (a + 1e-10)) := by
    field_simp
    ring
  rw [hdiff, abs_div, abs_mul,
    abs_of_pos (mul_pos hD hA), div_le_iff₀ (mul_pos hD hA)]
  have h2 : |1e-10 * (1 - a - 1e-10)| = 1e-10 * |1 - a - 1e-10| := by
    rw [abs_mul]
    norm_num
  rw [h2]
  rcases abs_cases (1 - a - (1e-10 : ℝ)) with ⟨heq, hsign⟩ | ⟨heq, hsign⟩ <;> rw [heq]
  · have hstep1 : |x| * (1e-10 * (1 - a - 1e-10)) ≤ 1e-10 * a := by
      nlinarith [abs_nonneg x, mul_le_mul_of_nonneg_right hx hsign]
    have hstep2 : (1e-10 : ℝ) * a ≤
        1e-9 * ((a + 1e-10 * (a + 1e-10)) * (a + 1e-10)) := by
      nlinarith [sq_nonneg a, mul_pos hD hA]
    linarith
  · have hstep1 : |x| * (1e-10 * -(1 - a - 1e-10)) ≤
        1e-10 * (a * (a + 1e-10)) := by
      nlinarith [abs_nonneg x, mul_le_mul_of_nonneg_right hx
        (by linarith : (0 : ℝ) ≤ -(1 - a - 1e-10))]
    have hstep2 : (1e-10 : ℝ) * (a * (a + 1e-10)) ≤
        1e-9 * ((a + 1e-10 * (a + 1e-10)) * (a + 1e-10)) := by
      nlinarith [hA, hD]
    linarith

theorem prepare_idem_component (l : List ℝ) (h : 1 / 10 ≤ norm2 l) (i : ℕ) :
    |(prepare_quantum_state (prepare_quantum_state l)).getD i 0 -
        (prepare_quantum_state l).getD i 0| ≤ 1e-9 := by
  rw [getD_prepare (prepare_quantum_state l) i, getD_prepare l i, norm2_prepare l,
    div_div]
  exact prepare_idem_bound (norm2 l) (l.getD i 0) h (abs_le_norm2 l i)

theorem norm2_single (x : ℝ) (hx : 0 ≤ x) : norm2 [x] = x := by
  unfold norm2
  have h : (([x] : List ℝ).map (fun v => v ^ 2)).sum = x ^ 2 := by simp
  rw [h, Real.sqrt_sq hx]

/-! ### The claims -/

/-- The operator described by the specification for `apply_gate`: entry
`(i, j)` equals `gate[bit(i,target), bit(j,target)]` when `i` and `j` agree
on every bit position other than `target`, and equals 0 otherwise.  Written
from the spec's words, to be compared with `gateFull` (the code's array). -/
def specGateOperator (n : ℕ) (g : ℕ → ℕ → ℂ) (t : ℕ) (i j : Fin (2 ^ n)) : ℂ :=
  if ∀ k < n, k ≠ t → sbit n k i.val = sbit n k j.val then
    g (sbit n t i.val) (sbit n t j.val)
  else 0

/-- Claim C1: for every valid sequence of operations applied via `apply_gate`
(2×2 unitary gate, `0 ≤ target < n`, encoded as `Fin n`) and
`entangle_qubits` (`control ≠ target`, both in range) starting from the
initial basis state, the sum of squared magnitudes of the state equals 1 to
within 1e-9 — here proved from the exact identity `sumNormSq = 1`.  Since
the statement covers every valid `ops` list, it covers every prefix, i.e.
the invariant holds after each operation. -/
theorem C1_unitarity_preserved (n : ℕ) (ops : List (QOp n))
    (h : ∀ op ∈ ops, ValidOp n op) :
    |sumNormSq n (runOps n ops (initState n)) - 1| ≤ 1e-9 := by
  rw [runOps_normSq n ops (initState n) h, sumNormSq_initState]
  norm_num

/-- Witness for C1 at a concrete valid program: `entangle_qubits(0, 1)` on a
2-qubit circuit. -/
theorem C1_witness :
    (∀ op ∈ [QOp.ent (0 : Fin 2) 1], ValidOp 2 op) ∧
      |sumNormSq 2 (runOps 2 [QOp.ent (0 : Fin 2) 1] (initState 2)) - 1| ≤ 1e-9 := by
  have hval : ∀ op ∈ [QOp.ent (0 : Fin 2) 1], ValidOp 2 op := by
    intro op hop
    rw [List.mem_singleton] at hop
    subst hop
    show (0 : Fin 2) ≠ 1
    decide
  exact ⟨hval, C1_unitarity_preserved 2 _ hval⟩

/-- Claim C2: for every 2×2 gate (given by its entries) and every in-range
target, the operator `apply_gate` builds is exactly the specified one —
entry `(i,j)` is `gate[bit(i,t), bit(j,t)]` when `i, j` agree away from `t`
and `0` otherwise — and the new state is that operator applied to the old
state.  (The Python method mutates `self.state` in place and returns
nothing; the embedding returns the new state instead.) -/
theorem C2_apply_gate_is_spec_operator (n : ℕ) (g : ℕ → ℕ → ℂ) (t : Fin n)
    (s : QState n) :
    (∀ i j, gateFull n g t.val i j = specGateOperator n g t.val i j) ∧
      apply_gate n g t.val s = fun i => ∑ j, specGateOperator n g t.val i j * s j := by
  have hmat : ∀ i j : Fin (2 ^ n),
      gateFull n g t.val i j = specGateOperator n g t.val i j := by
    intro i j
    unfold gateFull specGateOperator
    by_cases hag : ∀ k < n, k ≠ t.val → sbit n k i.val = sbit n k j.val
    · rw [if_pos hag, if_pos hag]
    · have hne : ¬ i = j := fun hh => hag (by intro k hk hkt; rw [hh])
      rw [if_neg hag, if_neg hag, if_neg hne]
  refine ⟨hmat, ?_⟩
  funext i
  unfold apply_gate
  exact Finset.sum_congr rfl (fun j _ => by rw [hmat i j])

/-- Claim C3: with `control ≠ target` (both in range), `entangle_qubits`
applied twice with the same arguments restores the state, and one
application swaps the amplitudes of each control-set pair of basis indices
exactly once (indices with control bit 0 are untouched). -/
theorem C3_entangle_self_inverse (n : ℕ) (c t : Fin n) (s : QState n)
    (hct : c ≠ t) :
    entangle_qubits n c t (entangle_qubits n c t s) = s ∧
      (∀ i, entangle_qubits n c t s i =
        if sbit n c.val i.val = 1 then s (flipBit n t i) else s i) := by
  have hsingle : ∀ (s' : QState n) (i : Fin (2 ^ n)), entangle_qubits n c t s' i =
      if sbit n c.val i.val = 1 then s' (flipBit n t i) else s' i := by
    intro s' i
    rw [entangle_closed]
    by_cases h : sbit n c.val i.val = 1
    · rw [if_pos (Or.inl h), if_pos h]
    · rw [if_neg (fun hh => hh.elim h hct), if_neg h]
  constructor
  · funext i
    rw [hsingle _ i]
    by_cases h : sbit n c.val i.val = 1
    · rw [if_pos h, hsingle s (flipBit n t i)]
      have hbit : sbit n c.val (flipBit n t i).val = 1 := by
        rw [sbit_flipBit_ne n t c.val c.isLt (fun hh => hct (Fin.ext hh)) i]
        exact h
      rw [if_pos hbit, flipBit_flipBit]
    · rw [if_neg h, hsingle s i, if_neg h]
  · exact hsingle s

/-- Witness for C3 at `n = 2`, `control = 0`, `target = 1`, the initial
state. -/
theorem C3_witness :
    ((0 : Fin 2) ≠ 1) ∧
      (entangle_qubits 2 0 1 (entangle_qubits 2 0 1 (initState 2)) = initState 2 ∧
        ∀ i, entangle_qubits 2 0 1 (initState 2) i =
          if sbit 2 (0 : Fin 2).val i.val = 1 then initState 2 (flipBit 2 1 i)
          else initState 2 i) :=
  ⟨by decide, C3_entangle_self_inverse 2 0 1 (initState 2) (by decide)⟩

/-- Claim C4: the transform returns exactly `N = len(signal)` coefficients
and coefficient `k` equals the direct DFT definition
`Σ_t signal[t]·exp(−2πi·k·t/N)`. -/
theorem C4_transform_is_dft (l : List ℝ) :
    (quantum_feature_extraction l).length = l.length ∧
      ∀ k, k < l.length → (quantum_feature_extraction l).getD k 0 = dftSpec l k := by
  constructor
  · unfold quantum_feature_extraction
    rw [List.length_map, List.length_range]
  · intro k hk
    rw [getD_quantum_feature_extraction l k hk, dftCoeff_eq_dftSpec]

/-- Witness for C4 at `signal = [1, 0]`, coefficient `k = 0`. -/
theorem C4_witness :
    (0 < ([(1 : ℝ), 0]).length) ∧
      (quantum_feature_extraction [(1 : ℝ), 0]).getD 0 0 = dftSpec [(1 : ℝ), 0] 0 :=
  ⟨by norm_num, (C4_transform_is_dft [(1 : ℝ), 0]).2 0 (by norm_num)⟩

/-- Counterexample to claim C5: the claim demands that every malformed call
fail fast, but a 3×3 gate (shape not 2×2) is silently accepted by
`apply_gate`, and so is the out-of-range target `-1` (Python negative
indexing), on a well-formed 2×2 gate. -/
theorem C5_counterexample :
    (apply_gate_py 1 [[1, 0, 0], [0, 1, 0], [0, 0, 1]] 0 (initState 1)).isSome = true ∧
      (apply_gate_py 2 [[0, 1], [1, 0]] (-1) (initState 2)).isSome = true := by
  constructor <;> rfl

/-- Amended C5: the code performs no dimension validation and raises no
distinct error kind.  `apply_gate` succeeds exactly when the raw target is a
valid Python string index (`-n ≤ t < n`, negative values silently wrapping)
and the gate exposes entries `(0..1, 0..1)` (so any gate at least 2×2 in
each accessed row is accepted, whatever its shape); otherwise it raises a
generic `IndexError` (`none`).  `entangle_qubits` succeeds exactly when both
raw indices are valid string indices. -/
theorem C5_no_validation (n : ℕ) (g : List (List ℂ)) (cz tz : ℤ) (s : QState n) :
    ((apply_gate_py n g tz s).isSome = true ↔
      ((-(n : ℤ) ≤ tz ∧ tz < n) ∧ gateShapeOK g = true)) ∧
      ((entangle_py n cz tz s).isSome = true ↔
        ((-(n : ℤ) ≤ cz ∧ cz < n) ∧ (-(n : ℤ) ≤ tz ∧ tz < n))) :=
  ⟨apply_gate_py_isSome_iff n g tz s, entangle_py_isSome_iff n cz tz s⟩

/-- Counterexample to claim C6: on the all-zero signal of length 2 the
`periodic` metric is the unguarded `0.0 / 0.0` — NaN, modelled `none` — and
not a guarded fixed value such as 0. -/
theorem C6_counterexample : detect_periodicity (List.replicate 2 0) = none :=
  detect_periodicity_replicate_zero 2 (by norm_num)

/-- Amended C6: on an all-zero signal of length `L ≥ 1` the normalized
signal is all zeros, `noise_level = 0` and `complexity = 0` as claimed, but
`periodic` is the undefined `0/0` (NaN), not a guarded value. -/
theorem C6_all_zero_signal (L : ℕ) (hL : 1 ≤ L) :
    prepare_quantum_state (List.replicate L 0) = List.replicate L 0 ∧
      estimate_noise (List.replicate L 0) = some 0 ∧
      quantum_complexity (List.replicate L 0) = 0 ∧
      detect_periodicity (List.replicate L 0) = none :=
  ⟨prepare_replicate_zero L, estimate_noise_replicate_zero L hL,
    quantum_complexity_all_zero _ (fun _ hx => List.eq_of_mem_replicate hx),
    detect_periodicity_replicate_zero L hL⟩

/-- Witness for (amended) C6 at `L = 1`. -/
theorem C6_witness :
    (1 ≤ 1) ∧
      (prepare_quantum_state (List.replicate 1 0) = List.replicate 1 0 ∧
        estimate_noise (List.replicate 1 0) = some 0 ∧
        quantum_complexity (List.replicate 1 0) = 0 ∧
        detect_periodicity (List.replicate 1 0) = none) :=
  ⟨le_refl 1, C6_all_zero_signal 1 (le_refl 1)⟩

/-- Claim C7: phase estimation returns the argument (in `(−π, π]`) of the
transform coefficient with the largest magnitude, the lowest index winning
ties (the first-occurrence semantics of `np.argmax`). -/
theorem C7_dominant_phase (l : List ℝ) (hl : 0 < l.length) :
    ∃ m, m < l.length ∧
      (quantum_phase_estimation l).2 =
        some (Complex.arg ((quantum_feature_extraction l).getD m 0)) ∧
      (∀ j, j < l.length →
        Complex.abs ((quantum_feature_extraction l).getD j 0) ≤
          Complex.abs ((quantum_feature_extraction l).getD m 0)) ∧
      (∀ j, j < l.length →
        Complex.abs ((quantum_feature_extraction l).getD j 0) =
          Complex.abs ((quantum_feature_extraction l).getD m 0) → m ≤ j) ∧
      (-Real.pi < Complex.arg ((quantum_feature_extraction l).getD m 0) ∧
        Complex.arg ((quantum_feature_extraction l).getD m 0) ≤ Real.pi) := by
  have hlen : ((quantum_feature_extraction l).map Complex.abs).length = l.length := by
    unfold quantum_feature_extraction
    rw [List.length_map, List.length_map, List.length_range]
  have hlen2 : (quantum_feature_extraction l).length = l.length := by
    unfold quantum_feature_extraction
    rw [List.length_map, List.length_range]
  obtain ⟨m, hsome, hm, hle, hst⟩ :=
    npArgmax_spec ((quantum_feature_extraction l).map Complex.abs)
      (by rw [hlen]; exact hl)
  have hmlen : m < l.length := by rw [← hlen]; exact hm
  have hconv : ∀ j, j < l.length →
      ((quantum_feature_extraction l).map Complex.abs).getD j 0 =
        Complex.abs ((quantum_feature_extraction l).getD j 0) := by
    intro j hj
    exact getD_map_abs (quantum_feature_extraction l) j (by rw [hlen2]; exact hj)
  refine ⟨m, hmlen, ?_, ?_, ?_, ?_, ?_⟩
  · show ((npArgmax ((quantum_feature_extraction l).map Complex.abs)).map fun m' =>
      Complex.arg ((quantum_feature_extraction l).getD m' 0)) = _
    rw [hsome]
    rfl
  · intro j hj
    rw [← hconv j hj, ← hconv m hmlen]
    exact hle j (by rw [hlen]; exact hj)
  · intro j hj heq
    by_contra hmj
    have hjm : j < m := by omega
    have := hst j hjm
    rw [hconv j hj, hconv m hmlen] at this
    rw [heq] at this
    exact lt_irrefl _ this
  · exact Complex.neg_pi_lt_arg _
  · exact Complex.arg_le_pi _

/-- Witness for C7 at `signal = [1]`. -/
theorem C7_witness :
    (0 < ([(1 : ℝ)]).length) ∧
      (∃ m, m < ([(1 : ℝ)]).length ∧
        (quantum_phase_estimation [(1 : ℝ)]).2 =
          some (Complex.arg ((quantum_feature_extraction [(1 : ℝ)]).getD m 0)) ∧
        (∀ j, j < ([(1 : ℝ)]).length →
          Complex.abs ((quantum_feature_extraction [(1 : ℝ)]).getD j 0) ≤
            Complex.abs ((quantum_feature_extraction [(1 : ℝ)]).getD m 0)) ∧
        (∀ j, j < ([(1 : ℝ)]).length →
          Complex.abs ((quantum_feature_extraction [(1 : ℝ)]).getD j 0) =
            Complex.abs ((quantum_feature_extraction [(1 : ℝ)]).getD m 0) → m ≤ j) ∧
        (-Real.pi < Complex.arg ((quantum_feature_extraction [(1 : ℝ)]).getD m 0) ∧
          Complex.arg ((quantum_feature_extraction [(1 : ℝ)]).getD m 0) ≤ Real.pi)) :=
  ⟨by norm_num, C7_dominant_phase [(1 : ℝ)] (by norm_num)⟩

/-- Counterexample to claim C8: on the empty signal the claim demands
`noise_level = 0`, but `np.std` of an empty array is NaN (the mean is
`0/0`), modelled `none`. -/
theorem C8_counterexample :
    estimate_noise ([] : List ℝ) = none ∧
      ¬ estimate_noise ([] : List ℝ) = some 0 := by
  refine ⟨estimate_noise_nil, ?_⟩
  rw [estimate_noise_nil]
  simp

/-- Amended C8: a length-1 signal gives `complexity = 0` and
`noise_level = 0`; the empty signal gives `complexity = 0` but NaN
`noise_level`, not 0. -/
theorem C8_degenerate_metrics (l : List ℝ) :
    (l.length ≤ 1 → quantum_complexity l = 0) ∧
      (l.length = 1 → estimate_noise l = some 0) ∧
      (l.length = 0 → estimate_noise l = none) := by
  refine ⟨quantum_complexity_short l, ?_, ?_⟩
  · intro h1
    obtain ⟨x, hx⟩ := List.length_eq_one.mp h1
    rw [hx]
    exact estimate_noise_single x
  · intro h0
    rw [List.length_eq_zero.mp h0]
    exact estimate_noise_nil

/-- Witness for (amended) C8 at the length-1 signal `[5]`. -/
theorem C8_witness :
    quantum_complexity [(5 : ℝ)] = 0 ∧ estimate_noise [(5 : ℝ)] = some 0 :=
  ⟨(C8_degenerate_metrics [(5 : ℝ)]).1 (by norm_num),
    (C8_degenerate_metrics [(5 : ℝ)]).2.1 (by norm_num)⟩

/-- Counterexample to claim C9 as stated (with `≈` read at the spec's own
1e-9 tolerance): at `x = [1e-10]`, whose norm equals the ε guard,
`normalize(normalize x)` moves the single component by ≈ 0.5. -/
theorem C9_counterexample :
    ¬ |(prepare_quantum_state (prepare_quantum_state [(1e-10 : ℝ)])).getD 0 0 -
        (prepare_quantum_state [(1e-10 : ℝ)]).getD 0 0| ≤ 1e-9 := by
  have h1 : prepare_quantum_state [(1e-10 : ℝ)] = [1 / 2] := by
    unfold prepare_quantum_state
    rw [norm2_single (1e-10) (by norm_num)]
    norm_num
  rw [h1]
  have h2 : prepare_quantum_state [(1 / 2 : ℝ)] =
      [(1 / 2 : ℝ) / (1 / 2 + 1e-10)] := by
    unfold prepare_quantum_state
    rw [norm2_single (1 / 2) (by norm_num)]
    simp
  rw [h2]
  show ¬ |(1 / 2 : ℝ) / (1 / 2 + 1e-10) - 1 / 2| ≤ 1e-9
  rw [abs_of_pos (by norm_num)]
  norm_num

/-- Amended C9: normalization is idempotent to within 1e-9 (componentwise)
once the input norm is not of the order of the ε guard: here under
`‖x‖ ≥ 1/10`. -/
theorem C9_normalize_idempotent (l : List ℝ) (h : 1 / 10 ≤ norm2 l) :
    ∀ i, |(prepare_quantum_state (prepare_quantum_state l)).getD i 0 -
        (prepare_quantum_state l).getD i 0| ≤ 1e-9 :=
  fun i => prepare_idem_component l h i

/-- Witness for (amended) C9 at `x = [1]`. -/
theorem C9_witness :
    (1 / 10 ≤ norm2 [(1 : ℝ)]) ∧
      ∀ i, |(prepare_quantum_state (prepare_quantum_state [(1 : ℝ)])).getD i 0 -
          (prepare_quantum_state [(1 : ℝ)]).getD i 0| ≤ 1e-9 := by
  have h : 1 / 10 ≤ norm2 [(1 : ℝ)] := by
    rw [norm2_single 1 (by norm_num)]
    norm_num
  exact ⟨h, C9_normalize_idempotent [(1 : ℝ)] h⟩

/-- Claim C10 (implicit): `entangle_qubits(t, t)` — violating the spec's
`control ≠ target` precondition — raises no error and transforms the state
exactly as `apply_gate` with the `X` gate on qubit `t` would. -/
theorem C10_entangle_self_is_X (n : ℕ) (t : Fin n) (s : QState n) :
    entangle_py n (t.val : ℤ) (t.val : ℤ) s =
      some (apply_gate n (entry Xgate) t.val s) := by
  rw [entangle_py_coe n t t s, entangle_self_eq_X n t s]

end

end QV
